import Mathlib

/-!
Verification development for the textmoji-sense matching engine
(`src/utils/emojiMatcher.ts`).

The engine is embedded shallowly:

* JavaScript strings are modelled as Lean `String`s (lists of characters);
  `String.length` counts characters.
* JavaScript `number` values used as result caps are modelled as `Int`
  (they can be negative); internal match scores are `Int` for the
  word-level matcher (all its scores are integers) and `Real` for the
  sentence-level matcher (cosine similarity is real-valued; IEEE-754
  floating point is idealised as real arithmetic).
* The `emojiDatabase` / `emojiKeywordIndex` module is not part of the
  sources; the matcher functions are therefore parameterised by the
  database and by the keyword index, and a concrete knowledge base is
  modelled from the specification for use in concrete instances.
* JavaScript `Array.prototype.sort` with comparator `(a, b) => b.score -
  a.score` is modelled as a stable merge sort by descending score;
  `Array.prototype.slice(0, end)` is modelled by `jsSliceTo`, including
  its negative-end semantics.
-/

namespace TextmojiSense

/-- Model of the JavaScript whitespace-run split `str.split(/\s+/)` on a
list of characters: the string is cut at each maximal nonempty run of
whitespace characters; a leading or trailing run produces an empty token,
and the result is never the empty list (splitting the empty string gives
one empty token). -/
def splitWSChars (l : List Char) : List (List Char) :=
  let tok := l.takeWhile (fun c => !c.isWhitespace)
  let rest := l.dropWhile (fun c => !c.isWhitespace)
  match h : rest with
  | [] => [tok]
  | _ :: rest' => tok :: splitWSChars (rest'.dropWhile Char.isWhitespace)
termination_by l.length
decreasing_by
  have h1 : rest.length ≤ l.length := by
    have hs : List.Sublist (l.dropWhile fun c => !c.isWhitespace) l :=
      List.dropWhile_sublist _
    simpa using hs.length_le
  have h2 : (rest'.dropWhile Char.isWhitespace).length ≤ rest'.length :=
    (List.dropWhile_sublist _).length_le
  simp only [h] at h1
  simp at h1 ⊢
  omega

/-- Model of `str.split(/\s+/)` for strings. -/
def jsSplitWS (s : String) : List String :=
  (splitWSChars s.data).map fun cs => String.mk cs

/-- Model of `a.startsWith(b)`. -/
def jsStartsWith (s p : String) : Bool :=
  decide (p.data <+: s.data)

/-- Model of `a.includes(b)` (substring containment). -/
def jsIncludes (s sub : String) : Bool :=
  decide (sub.data <:+: s.data)

/-- Model of `arr.slice(0, e)` for an integer end index `e`: a
nonnegative end index truncates to the first `e` elements, a negative end
index `-k` counts from the end of the array (clamped at `0`), removing
the last `k` elements. -/
def jsSliceTo {α : Type} (l : List α) (e : Int) : List α :=
  if e < 0 then l.take ((l.length + e).toNat) else l.take e.toNat

/-! ## Levenshtein distance

`levenshteinDistance` embeds the dynamic program of the source
(`emojiMatcher.ts`, lines 26-52): a matrix over rows `i = 0..str2.length`
and columns `j = 0..str1.length`, with `matrix[i][0] = i`,
`matrix[0][j] = j`, and each inner cell taking the diagonal value when
the current characters agree and otherwise `1 +` the minimum of the
diagonal, left and upper neighbours.  `editDistance` is the textbook
mathematical cost-1 insert/delete/substitute edit distance, stated as a
recursion; the two are proved equal below. -/

/-- Substitution cost of classic Levenshtein distance: `0` for equal
characters, `1` otherwise. -/
def subCost (x y : Char) : Nat :=
  if x = y then 0 else 1

/-- The mathematical single-character insert/delete/substitute cost-1
Levenshtein (edit) distance between two lists of characters, written as
the textbook recursion. -/
def editDistance : List Char → List Char → Nat
  | [], ys => ys.length
  | _ :: xs, [] => xs.length + 1
  | x :: xs, y :: ys =>
    min (1 + editDistance xs (y :: ys))
      (min (1 + editDistance (x :: xs) ys) (subCost x y + editDistance xs ys))
termination_by xs ys => xs.length + ys.length
decreasing_by all_goals (simp only [List.length_cons]; omega)

/-- One inner-loop sweep of the source's dynamic program: given the
current row character `c` of `str2`, the remaining column characters of
`str1`, the tail of the previous matrix row from the current diagonal
onward, and the value just written to the left in the new row, produce
the remaining entries of the new row. -/
def buildRow (c : Char) : List Char → List Nat → Nat → List Nat
  | a :: as, d :: up :: rest, left =>
    let e := if c = a then d else min (d + 1) (min (left + 1) (up + 1))
    e :: buildRow c as (up :: rest) e
  | _, _, _ => []

/-- The outer loop of the source's dynamic program: fold the characters
of `str2` over the rows, starting from row `0 = [0, 1, ..., str1.length]`
and prepending the row index as the first column of each new row. -/
def levRows (s1 : List Char) : List Char → List Nat → Nat → List Nat
  | [], prev, _ => prev
  | c :: cs, prev, i => levRows s1 cs ((i + 1) :: buildRow c s1 prev (i + 1)) (i + 1)

/-- Embedding of `levenshteinDistance(str1, str2)` from the source: run
the dynamic program and read off the bottom-right matrix entry. -/
def levenshteinDistance (str1 str2 : String) : Nat :=
  (levRows str1.data str2.data (List.range (str1.data.length + 1)) 0).getLastD 0

theorem editDistance_nil_left (ys : List Char) : editDistance [] ys = ys.length := by
  rw [editDistance]

theorem editDistance_nil_right (xs : List Char) : editDistance xs [] = xs.length := by
  cases xs with
  | nil => rw [editDistance]
  | cons x xs => rw [editDistance]; rfl

theorem editDistance_cons_cons (x y : Char) (xs ys : List Char) :
    editDistance (x :: xs) (y :: ys) =
      min (1 + editDistance xs (y :: ys))
        (min (1 + editDistance (x :: xs) ys) (subCost x y + editDistance xs ys)) := by
  rw [editDistance]

theorem editDistance_le_one_add_cons_right (y : Char) :
    (xs ys : List Char) → editDistance xs ys ≤ 1 + editDistance xs (y :: ys)
  | [], ys => by
    rw [editDistance_nil_left, editDistance_nil_left]
    simp only [List.length_cons]
    omega
  | x :: xs, [] => by
    have ih := editDistance_le_one_add_cons_right y xs []
    rw [editDistance_nil_right] at ih
    rw [editDistance_nil_right, editDistance_cons_cons, editDistance_nil_right,
      editDistance_nil_right]
    simp only [List.length_cons]
    omega
  | x :: xs, y' :: ys => by
    have ih := editDistance_le_one_add_cons_right y xs (y' :: ys)
    have hL := editDistance_cons_cons x y' xs ys
    have hR := editDistance_cons_cons x y xs (y' :: ys)
    omega
termination_by xs ys => xs.length + ys.length
decreasing_by all_goals (simp only [List.length_cons]; omega)

theorem editDistance_le_one_add_cons_left (x : Char) :
    (xs ys : List Char) → editDistance xs ys ≤ 1 + editDistance (x :: xs) ys
  | xs, [] => by
    rw [editDistance_nil_right, editDistance_nil_right]
    simp only [List.length_cons]
    omega
  | [], y :: ys => by
    have ih := editDistance_le_one_add_cons_left x [] ys
    rw [editDistance_nil_left] at ih
    rw [editDistance_nil_left, editDistance_cons_cons, editDistance_nil_left,
      editDistance_nil_left]
    simp only [List.length_cons]
    omega
  | x' :: xs, y :: ys => by
    have ih := editDistance_le_one_add_cons_left x (x' :: xs) ys
    have hL := editDistance_cons_cons x' y xs ys
    have hR := editDistance_cons_cons x y (x' :: xs) ys
    omega
termination_by xs ys => xs.length + ys.length
decreasing_by all_goals (simp only [List.length_cons, List.length_nil]; omega)

theorem editDistance_cons_cons_of_eq {x y : Char} (h : x = y) (xs ys : List Char) :
    editDistance (x :: xs) (y :: ys) = editDistance xs ys := by
  have h1 := editDistance_le_one_add_cons_right y xs ys
  have h2 := editDistance_le_one_add_cons_left x xs ys
  have h3 := editDistance_cons_cons x y xs ys
  have hc : subCost x y = 0 := by simp [subCost, h]
  omega

set_option maxHeartbeats 1000000 in
theorem editDistance_append_single (x y : Char) :
    (u v : List Char) → editDistance (u ++ [x]) (v ++ [y]) =
      min (1 + editDistance u (v ++ [y]))
        (min (1 + editDistance (u ++ [x]) v) (subCost x y + editDistance u v))
  | [], [] => by
    simp only [List.nil_append]
    rw [editDistance_cons_cons]
  | [], v₀ :: v' => by
    have ih := editDistance_append_single x y [] v'
    simp only [List.nil_append] at ih
    have e1 : editDistance [] (v₀ :: (v' ++ [y])) = v'.length + 2 := by
      rw [editDistance_nil_left]
      simp only [List.length_cons, List.length_append, List.length_cons, List.length_nil]
    have e2 : editDistance [] (v' ++ [y]) = v'.length + 1 := by
      rw [editDistance_nil_left]
      simp only [List.length_append, List.length_cons, List.length_nil]
    have e3 : editDistance [] v' = v'.length := editDistance_nil_left v'
    have e4 : editDistance [] (v₀ :: v') = v'.length + 1 := by
      rw [editDistance_nil_left]
      simp only [List.length_cons]
    simp only [List.nil_append, List.cons_append]
    rw [editDistance_cons_cons x v₀ [] (v' ++ [y]), ih,
      editDistance_cons_cons x v₀ [] v', e1, e2, e3, e4]
    apply le_antisymm
    · simp only [le_min_iff, min_le_iff]
      omega
    · simp only [le_min_iff, min_le_iff]
      omega
  | u₀ :: u', [] => by
    have ih := editDistance_append_single x y u' []
    simp only [List.nil_append] at ih
    have e1 : editDistance (u' ++ [x]) [] = u'.length + 1 := by
      rw [editDistance_nil_right]
      simp only [List.length_append, List.length_cons, List.length_nil]
    have e2 : editDistance u' [] = u'.length := editDistance_nil_right u'
    have e3 : editDistance (u₀ :: (u' ++ [x])) [] = u'.length + 2 := by
      rw [editDistance_nil_right]
      simp only [List.length_cons, List.length_append, List.length_nil]
    have e4 : editDistance (u₀ :: u') [] = u'.length + 1 := by
      rw [editDistance_nil_right]
      simp only [List.length_cons]
    simp only [List.nil_append, List.cons_append]
    rw [editDistance_cons_cons u₀ y (u' ++ [x]) [], ih,
      editDistance_cons_cons u₀ y u' [], e1, e2, e3, e4]
    apply le_antisymm
    · simp only [le_min_iff, min_le_iff]
      omega
    · simp only [le_min_iff, min_le_iff]
      omega
  | u₀ :: u', v₀ :: v' => by
    have ihA := editDistance_append_single x y u' (v₀ :: v')
    have ihB := editDistance_append_single x y (u₀ :: u') v'
    have ihC := editDistance_append_single x y u' v'
    simp only [List.cons_append] at ihA ihB ihC ⊢
    rw [editDistance_cons_cons u₀ v₀ (u' ++ [x]) (v' ++ [y]),
      editDistance_cons_cons u₀ v₀ u' (v' ++ [y]),
      editDistance_cons_cons u₀ v₀ (u' ++ [x]) v',
      editDistance_cons_cons u₀ v₀ u' v', ihA, ihB, ihC]
    apply le_antisymm
    · simp only [le_min_iff, min_le_iff]
      omega
    · simp only [le_min_iff, min_le_iff]
      omega
termination_by u v => u.length + v.length
decreasing_by all_goals (simp only [List.length_cons, List.length_nil]; omega)

theorem editDistance_reverse :
    (u v : List Char) → editDistance u.reverse v.reverse = editDistance u v
  | [], v => by
    rw [List.reverse_nil, editDistance_nil_left, editDistance_nil_left]
    simp
  | x :: xs, [] => by
    rw [List.reverse_nil, editDistance_nil_right, editDistance_nil_right]
    simp
  | x :: xs, y :: ys => by
    have ih1 := editDistance_reverse xs (y :: ys)
    have ih2 := editDistance_reverse (x :: xs) ys
    have ih3 := editDistance_reverse xs ys
    have happ := editDistance_append_single x y xs.reverse ys.reverse
    have hc := editDistance_cons_cons x y xs ys
    simp only [List.reverse_cons] at *
    omega
termination_by u v => u.length + v.length
decreasing_by all_goals (simp only [List.length_cons, List.length_nil]; omega)

theorem subCost_comm (x y : Char) : subCost x y = subCost y x := by
  simp [subCost, eq_comm]

theorem editDistance_comm :
    (u v : List Char) → editDistance u v = editDistance v u
  | [], v => by rw [editDistance_nil_left, editDistance_nil_right]
  | x :: xs, [] => by rw [editDistance_nil_left, editDistance_nil_right]
  | x :: xs, y :: ys => by
    have ih1 := editDistance_comm xs (y :: ys)
    have ih2 := editDistance_comm (x :: xs) ys
    have ih3 := editDistance_comm xs ys
    have hL := editDistance_cons_cons x y xs ys
    have hR := editDistance_cons_cons y x ys xs
    have hc := subCost_comm x y
    omega
termination_by u v => u.length + v.length
decreasing_by all_goals (simp only [List.length_cons, List.length_nil]; omega)

/-- Specification of a row of the source's Levenshtein matrix: the row for
the (reversed) prefix `u` of `str2`, starting at the column whose
(reversed) `str1`-prefix is `p`, with the remaining column characters
`rest`. -/
def rowSpec (u : List Char) : List Char → List Char → List Nat
  | p, [] => [editDistance u p]
  | p, a :: as => editDistance u p :: rowSpec u (a :: p) as

theorem rowSpec_head_cons_tail (u p rest) :
    rowSpec u p rest = editDistance u p :: (rowSpec u p rest).tail := by
  cases rest <;> rfl

theorem buildRow_rowSpec (c : Char) {u : List Char} :
    ∀ (rest p : List Char),
      buildRow c rest (rowSpec u p rest) (editDistance (c :: u) p) =
        (rowSpec (c :: u) p rest).tail
  | [], p => by simp [rowSpec, buildRow]
  | a :: as, p => by
    have hhead := rowSpec_head_cons_tail u (a :: p) as
    have hstep : (if c = a then editDistance u p
        else min (editDistance u p + 1)
          (min (editDistance (c :: u) p + 1) (editDistance u (a :: p) + 1))) =
        editDistance (c :: u) (a :: p) := by
      by_cases hca : c = a
      · rw [if_pos hca, editDistance_cons_cons_of_eq hca]
      · rw [if_neg hca]
        have h := editDistance_cons_cons c a u p
        have hc : subCost c a = 1 := by simp [subCost, hca]
        omega
    calc buildRow c (a :: as) (rowSpec u p (a :: as)) (editDistance (c :: u) p)
        = editDistance (c :: u) (a :: p) ::
            buildRow c as (rowSpec u (a :: p) as) (editDistance (c :: u) (a :: p)) := by
          conv_lhs => rw [show rowSpec u p (a :: as) =
            editDistance u p :: editDistance u (a :: p) :: (rowSpec u (a :: p) as).tail by
              rw [← hhead]; rfl]
          rw [buildRow]
          simp only [← hstep]
          rw [← rowSpec_head_cons_tail]
      _ = editDistance (c :: u) (a :: p) :: (rowSpec (c :: u) (a :: p) as).tail := by
          rw [buildRow_rowSpec c as (a :: p)]
      _ = rowSpec (c :: u) (a :: p) as := (rowSpec_head_cons_tail (c :: u) (a :: p) as).symm
      _ = (rowSpec (c :: u) p (a :: as)).tail := rfl

theorem levRows_rowSpec (s1 : List Char) :
    ∀ (cs u : List Char),
      levRows s1 cs (rowSpec u [] s1) u.length = rowSpec (cs.reverse ++ u) [] s1
  | [], u => by simp [levRows]
  | c :: cs, u => by
    have hlen : editDistance (c :: u) [] = u.length + 1 := by
      rw [editDistance_nil_right]; rfl
    have hrow : (u.length + 1) :: buildRow c s1 (rowSpec u [] s1) (u.length + 1) =
        rowSpec (c :: u) [] s1 := by
      rw [← hlen, buildRow_rowSpec c s1 [], ← rowSpec_head_cons_tail]
    rw [levRows, hrow]
    have ih := levRows_rowSpec s1 cs (c :: u)
    simp only [List.length_cons] at ih
    rw [ih]
    simp

theorem rowSpec_nil_left :
    ∀ (rest p : List Char), rowSpec [] p rest = List.range' p.length (rest.length + 1)
  | [], p => by simp [rowSpec, editDistance_nil_left]
  | a :: as, p => by
    rw [rowSpec, rowSpec_nil_left as (a :: p), editDistance_nil_left]
    simp only [List.length_cons]
    rw [List.range'_succ p.length (as.length + 1) 1]

theorem rowSpec_getLastD (u : List Char) :
    ∀ (rest p : List Char),
      (rowSpec u p rest).getLastD 0 = editDistance u (rest.reverse ++ p)
  | [], p => by simp [rowSpec]
  | a :: as, p => by
    rw [rowSpec, List.getLastD_cons]
    have h1 : (rowSpec u (a :: p) as).getLastD (editDistance u p) =
        (rowSpec u (a :: p) as).getLastD 0 := by
      rw [rowSpec_head_cons_tail u (a :: p) as]
      rw [List.getLastD_cons, List.getLastD_cons]
    rw [h1, rowSpec_getLastD u as (a :: p)]
    simp

/-- The source's dynamic-programming implementation computes exactly the
mathematical Levenshtein edit distance between its two argument strings. -/
theorem levenshteinDistance_eq_editDistance (str1 str2 : String) :
    levenshteinDistance str1 str2 = editDistance str1.data str2.data := by
  rw [levenshteinDistance]
  have hrange : List.range (str1.data.length + 1) = rowSpec [] [] str1.data := by
    rw [rowSpec_nil_left str1.data [], List.range_eq_range']
    rfl
  rw [hrange]
  have h := levRows_rowSpec str1.data str2.data []
  simp only [List.length_nil, List.append_nil] at h
  rw [h, rowSpec_getLastD, List.append_nil, editDistance_reverse, editDistance_comm]

/-- Model of `str.toLowerCase()`: lowercase each character.  (The core
`String.toLower` is not used because the embedding needs definitional
evaluation on concrete inputs.) -/
def jsToLower (s : String) : String :=
  String.mk (s.data.map Char.toLower)

/-- Model of `str.trim()`: remove leading and trailing whitespace. -/
def jsTrim (s : String) : String :=
  String.mk (((s.data.dropWhile Char.isWhitespace).reverse.dropWhile
    Char.isWhitespace).reverse)

/-! ## Knowledge base -/

/-- A record of the symbol knowledge base: one symbol together with its
descriptive keywords and its category tag. -/
structure EmojiData where
  emoji : String
  keywords : List String
  category : String
deriving DecidableEq

/-- The keyword index, a mapping from keyword to the symbols carrying it,
modelled as an association list in insertion order (JavaScript `Map`
iteration order). -/
abbrev KeywordIndex := List (String × List String)

/-- Look a keyword up in the index (`Map.get`): the entry of the first
matching key, if any. -/
def idxLookup (idx : KeywordIndex) (k : String) : Option (List String) :=
  (idx.find? fun e => e.1 == k).map fun e => e.2

/-- Modelled from the spec: the data module `@/data/emojiDatabase` is not
among the sources; per §4.1 the index is built by walking the records and
inserting each record's symbol under each of its lowercased keywords,
creating the entry if absent and keeping entries deduplicated. -/
def indexInsert (idx : KeywordIndex) (kw : String) (sym : String) : KeywordIndex :=
  match idx with
  | [] => [(kw, [sym])]
  | (k, syms) :: rest =>
    if k = kw then (k, if sym ∈ syms then syms else syms ++ [sym]) :: rest
    else (k, syms) :: indexInsert rest kw sym

/-- Modelled from the spec: build the keyword index from the record list
(spec §4.1, construction). -/
def buildKeywordIndex (db : List EmojiData) : KeywordIndex :=
  db.foldl (fun idx r => r.keywords.foldl (fun idx kw => indexInsert idx (jsToLower kw) r.emoji) idx) []

/-- Modelled from the spec: the data module `@/data/emojiDatabase` is not
among the sources.  The records here are the ones the spec pins down in
§8: a record with keyword `happy` mapped to the symbol 😀 (category
scenario `celebration`), and a second record in category `celebration`
with no keyword collision on `happy`. -/
def emojiDatabase : List EmojiData :=
  [⟨"😀", ["happy"], "celebration"⟩, ⟨"🎉", ["celebration"], "celebration"⟩]

/-- The derived keyword index of the modelled knowledge base. -/
def emojiKeywordIndex : KeywordIndex := buildKeywordIndex emojiDatabase

/-! ## Word-level matching -/

/-- The four match strategies (the source's `matchType` union; `pre` is
the strategy the source calls "prefix"). -/
inductive MatchType where
  | exact
  | pre
  | fuzzy
  | semantic
deriving DecidableEq

/-- A word-level match candidate (the source's `EmojiMatch` with the
integer scores of the word matcher). -/
structure WordMatch where
  emoji : String
  score : Int
  matchType : MatchType
deriving DecidableEq

/-- The evolving state of one word query: the pushed candidates
`matchList` (the source's `matches` array) and the set of already-claimed
symbols (the source's `seenEmojis`). -/
structure WordState where
  matchList : List WordMatch
  seen : List String
deriving DecidableEq

/-- Push one candidate unless its symbol is already claimed
(`if (!seenEmojis.has(emoji)) { matches.push(...); seenEmojis.add(...) }`). -/
def pushWordMatch (st : WordState) (e : String) (sc : Int) (k : MatchType) : WordState :=
  if e ∈ st.seen then st
  else ⟨st.matchList ++ [⟨e, sc, k⟩], st.seen ++ [e]⟩

/-- Pass 1 of `predictEmojisForWord`: exact keyword hit, score 100. -/
def exactPass (idx : KeywordIndex) (w : String) (st : WordState) : WordState :=
  match idxLookup idx w with
  | some emojis => emojis.foldl (fun st e => pushWordMatch st e 100 .exact) st
  | none => st

/-- Pass 2 of `predictEmojisForWord`: keywords starting with the word
(and different from it), score `90 - 2 * (keyword length - word length)`. -/
def startsWithPass (idx : KeywordIndex) (w : String) (st : WordState) : WordState :=
  idx.foldl
    (fun st kv =>
      if jsStartsWith kv.1 w ∧ kv.1 ≠ w then
        kv.2.foldl
          (fun st e =>
            pushWordMatch st e (90 - ((kv.1.length : Int) - (w.length : Int)) * 2) .pre) st
      else st) st

/-- Pass 3 of `predictEmojisForWord`: fuzzy matching, gated on
`matches.length < maxResults`; keywords within length difference 2 and
Levenshtein distance at most 2 score `80 - 10 * distance`. -/
def fuzzyPass (idx : KeywordIndex) (w : String) (maxResults : Int) (st : WordState) :
    WordState :=
  if (st.matchList.length : Int) < maxResults then
    idx.foldl
      (fun st kv =>
        if ((kv.1.length : Int) - (w.length : Int)).natAbs ≤ 2 then
          if levenshteinDistance w kv.1 ≤ 2 then
            kv.2.foldl
              (fun st e =>
                pushWordMatch st e (80 - (levenshteinDistance w kv.1 : Int) * 10) .fuzzy) st
          else st
        else st) st
  else st

/-- Pass 4 of `predictEmojisForWord`: keywords containing the word as a
proper substring, flat score 70; gated on `matches.length < maxResults`
and word length at least 3. -/
def semanticPass (idx : KeywordIndex) (w : String) (maxResults : Int) (st : WordState) :
    WordState :=
  if (st.matchList.length : Int) < maxResults ∧ 3 ≤ w.length then
    idx.foldl
      (fun st kv =>
        if jsIncludes kv.1 w ∧ kv.1 ≠ w then
          kv.2.foldl (fun st e => pushWordMatch st e 70 .semantic) st
        else st) st
  else st

/-- The candidate state of `predictEmojisForWord` after all four
strategy passes on the normalized word. -/
def wordMatchState (idx : KeywordIndex) (word : String) (maxResults : Int) : WordState :=
  semanticPass idx (jsTrim (jsToLower word)) maxResults
    (fuzzyPass idx (jsTrim (jsToLower word)) maxResults
      (startsWithPass idx (jsTrim (jsToLower word))
        (exactPass idx (jsTrim (jsToLower word)) ⟨[], []⟩)))

/-- Model of `matches.sort((a, b) => b.score - a.score)`: a stable sort
descending by score (insertion sort, which is stable: an element moves
before another only when its score is strictly greater). -/
def sortByScoreDesc {α : Type} {K : Type} [LinearOrder K] (score : α → K) (l : List α) :
    List α :=
  l.insertionSort fun a b => score b ≤ score a

/-- The ranked and truncated candidate list of `predictEmojisForWord`
(everything up to the final projection to symbols), including the
short-word guard `if (!word || word.length < 2) return []`. -/
def rankedWordMatches (idx : KeywordIndex) (word : String) (maxResults : Int) :
    List WordMatch :=
  if word = "" ∨ word.length < 2 then []
  else jsSliceTo (sortByScoreDesc WordMatch.score (wordMatchState idx word maxResults).matchList)
    maxResults

/-- Embedding of `predictEmojisForWord(word, maxResults)`. -/
def predictEmojisForWord (idx : KeywordIndex) (word : String) (maxResults : Int) :
    List String :=
  (rankedWordMatches idx word maxResults).map WordMatch.emoji

/-! ## Generic fold and state machinery -/

theorem foldl_preserve {α β : Type} {P : β → Prop} {f : β → α → β}
    (hf : ∀ b a, P b → P (f b a)) : ∀ (l : List α) (b : β), P b → P (l.foldl f b)
  | [], _, hb => hb
  | a :: l, b, hb => foldl_preserve hf l (f b a) (hf b a hb)

/-- The dedup invariant of a word query state: the pushed candidates name
pairwise distinct symbols, and the claimed set contains exactly the
symbols of the pushed candidates. -/
def SeenInv (st : WordState) : Prop :=
  (st.matchList.map WordMatch.emoji).Nodup ∧
    ∀ e, e ∈ st.seen ↔ e ∈ st.matchList.map WordMatch.emoji

theorem pushWordMatch_seenInv {st : WordState} (e : String) (sc : Int) (k : MatchType)
    (h : SeenInv st) : SeenInv (pushWordMatch st e sc k) := by
  unfold pushWordMatch
  split
  · exact h
  · rename_i hnot
    obtain ⟨hn, hiff⟩ := h
    have hem : e ∉ st.matchList.map WordMatch.emoji := fun hc => hnot ((hiff e).mpr hc)
    constructor
    · simp only [List.map_append, List.map_cons, List.map_nil, List.nodup_append]
      refine ⟨hn, by simp, ?_⟩
      intro a ha hb
      simp only [List.mem_cons, List.not_mem_nil, or_false] at hb
      subst hb
      exact hem ha
    · intro x
      simp only [List.map_append, List.map_cons, List.map_nil, List.mem_append,
        List.mem_cons, List.not_mem_nil, or_false]
      constructor
      · intro hx
        rcases hx with hx | hx
        · exact Or.inl ((hiff x).mp hx)
        · exact Or.inr hx
      · intro hx
        rcases hx with hx | hx
        · exact Or.inl ((hiff x).mpr hx)
        · exact Or.inr hx

theorem exactPass_seenInv (idx : KeywordIndex) (w : String) {st : WordState}
    (h : SeenInv st) : SeenInv (exactPass idx w st) := by
  unfold exactPass
  split
  · exact foldl_preserve (fun b a hb => pushWordMatch_seenInv a 100 .exact hb) _ st h
  · exact h

theorem startsWithPass_seenInv (idx : KeywordIndex) (w : String) {st : WordState}
    (h : SeenInv st) : SeenInv (startsWithPass idx w st) := by
  unfold startsWithPass
  refine foldl_preserve (fun b kv hb => ?_) idx st h
  split
  · exact foldl_preserve (fun b a hb => pushWordMatch_seenInv a _ .pre hb) _ b hb
  · exact hb

theorem fuzzyPass_seenInv (idx : KeywordIndex) (w : String) (m : Int) {st : WordState}
    (h : SeenInv st) : SeenInv (fuzzyPass idx w m st) := by
  unfold fuzzyPass
  split
  · refine foldl_preserve (fun b kv hb => ?_) idx st h
    split
    · split
      · exact foldl_preserve (fun b a hb => pushWordMatch_seenInv a _ .fuzzy hb) _ b hb
      · exact hb
    · exact hb
  · exact h

theorem semanticPass_seenInv (idx : KeywordIndex) (w : String) (m : Int) {st : WordState}
    (h : SeenInv st) : SeenInv (semanticPass idx w m st) := by
  unfold semanticPass
  split
  · refine foldl_preserve (fun b kv hb => ?_) idx st h
    split
    · exact foldl_preserve (fun b a hb => pushWordMatch_seenInv a 70 .semantic hb) _ b hb
    · exact hb
  · exact h

theorem wordMatchState_seenInv (idx : KeywordIndex) (word : String) (m : Int) :
    SeenInv (wordMatchState idx word m) := by
  unfold wordMatchState
  refine semanticPass_seenInv _ _ _ (fuzzyPass_seenInv _ _ _
    (startsWithPass_seenInv _ _ (exactPass_seenInv _ _ ?_)))
  exact ⟨List.nodup_nil, by simp⟩

theorem jsSliceTo_sublist {α : Type} (l : List α) (e : Int) : List.Sublist (jsSliceTo l e) l := by
  unfold jsSliceTo
  split <;> exact List.take_sublist _ _

theorem sortByScoreDesc_perm {α K : Type} [LinearOrder K] (score : α → K) (l : List α) :
    List.Perm (sortByScoreDesc score l) l :=
  List.perm_insertionSort _ l

theorem sortByScoreDesc_pairwise {α K : Type} [LinearOrder K] (score : α → K) (l : List α) :
    (sortByScoreDesc score l).Pairwise (fun a b => score b ≤ score a) := by
  haveI : IsTotal α (fun a b => score b ≤ score a) := ⟨fun a b => le_total (score b) (score a)⟩
  haveI : IsTrans α (fun a b => score b ≤ score a) :=
    ⟨fun a b c hab hbc => le_trans hbc hab⟩
  exact List.sorted_insertionSort _ l
theorem predictEmojisForWord_nodup (idx : KeywordIndex) (w : String) (m : Int) :
    (predictEmojisForWord idx w m).Nodup := by
  unfold predictEmojisForWord rankedWordMatches
  split
  · simp
  · have hinv := wordMatchState_seenInv idx w m
    have hperm : List.Perm
        (sortByScoreDesc WordMatch.score (wordMatchState idx w m).matchList)
        (wordMatchState idx w m).matchList := sortByScoreDesc_perm _ _
    have h2 : ((sortByScoreDesc WordMatch.score
        (wordMatchState idx w m).matchList).map WordMatch.emoji).Nodup :=
      ((hperm.map WordMatch.emoji).nodup_iff).mpr hinv.1
    have hsub := (jsSliceTo_sublist
      (sortByScoreDesc WordMatch.score (wordMatchState idx w m).matchList) m).map
        WordMatch.emoji
    exact h2.sublist hsub

/-- The score/strategy invariant used for strategy-priority reasoning:
every pushed candidate scores at most 100, and scores exactly 100 if and
only if it was claimed by the exact strategy. -/
def ScoreInv (st : WordState) : Prop :=
  ∀ mc ∈ st.matchList, mc.score ≤ 100 ∧ (mc.matchType = MatchType.exact ↔ mc.score = 100)

theorem pushWordMatch_scoreInv {st : WordState} {e : String} {sc : Int} {k : MatchType}
    (h : ScoreInv st) (hq : sc ≤ 100 ∧ (k = MatchType.exact ↔ sc = 100)) :
    ScoreInv (pushWordMatch st e sc k) := by
  unfold pushWordMatch
  split
  · exact h
  · intro mc hmc
    simp only [List.mem_append, List.mem_cons, List.not_mem_nil, or_false] at hmc
    rcases hmc with hmc | hmc
    · exact h mc hmc
    · subst hmc
      exact hq

theorem exactPass_scoreInv (idx : KeywordIndex) (w : String) {st : WordState}
    (h : ScoreInv st) : ScoreInv (exactPass idx w st) := by
  unfold exactPass
  split
  · exact foldl_preserve
      (fun b a hb => pushWordMatch_scoreInv hb (by simp)) _ st h
  · exact h

theorem startsWithPass_scoreInv (idx : KeywordIndex) (w : String) {st : WordState}
    (h : ScoreInv st) : ScoreInv (startsWithPass idx w st) := by
  unfold startsWithPass
  refine foldl_preserve (fun b kv hb => ?_) idx st h
  split
  · rename_i hcond
    obtain ⟨hpre, hne⟩ := hcond
    have hpre' : List.IsPrefix w.data kv.1.data := of_decide_eq_true hpre
    have hlt : w.length < kv.1.length := by
      have hle : w.data.length ≤ kv.1.data.length := hpre'.length_le
      rcases Nat.lt_or_ge w.data.length kv.1.data.length with hlt | hge
      · exact hlt
      · exfalso
        apply hne
        apply String.ext
        exact (hpre'.eq_of_length (Nat.le_antisymm hle hge)).symm
    refine foldl_preserve (fun b a hb => pushWordMatch_scoreInv hb ?_) _ b hb
    constructor
    · omega
    · constructor
      · intro hk
        exact absurd hk (by simp)
      · intro hs
        exfalso
        omega
  · exact hb

theorem fuzzyPass_scoreInv (idx : KeywordIndex) (w : String) (m : Int) {st : WordState}
    (h : ScoreInv st) : ScoreInv (fuzzyPass idx w m st) := by
  unfold fuzzyPass
  split
  · refine foldl_preserve (fun b kv hb => ?_) idx st h
    split
    · split
      · refine foldl_preserve (fun b a hb => pushWordMatch_scoreInv hb ?_) _ b hb
        have hd : (0 : Int) ≤ (levenshteinDistance w kv.1 : Int) := by positivity
        constructor
        · omega
        · constructor
          · intro hk
            exact absurd hk (by simp)
          · intro hs
            exfalso
            omega
      · exact hb
    · exact hb
  · exact h

theorem semanticPass_scoreInv (idx : KeywordIndex) (w : String) (m : Int) {st : WordState}
    (h : ScoreInv st) : ScoreInv (semanticPass idx w m st) := by
  unfold semanticPass
  split
  · refine foldl_preserve (fun b kv hb => ?_) idx st h
    split
    · refine foldl_preserve (fun b a hb => pushWordMatch_scoreInv hb ?_) _ b hb
      constructor
      · omega
      · constructor
        · intro hk
          exact absurd hk (by simp)
        · intro hs
          exact absurd hs (by omega)
    · exact hb
  · exact h

theorem wordMatchState_scoreInv (idx : KeywordIndex) (word : String) (m : Int) :
    ScoreInv (wordMatchState idx word m) := by
  unfold wordMatchState
  refine semanticPass_scoreInv _ _ _ (fuzzyPass_scoreInv _ _ _
    (startsWithPass_scoreInv _ _ (exactPass_scoreInv _ _ ?_)))
  intro mc hmc
  simp at hmc
theorem word_exact_first (idx : KeywordIndex) (w : String) (m : Int)
    (i j : Nat) (d : WordMatch) (hij : i ≤ j) (hj : j < (rankedWordMatches idx w m).length)
    (hx : ((rankedWordMatches idx w m).getD j d).matchType = MatchType.exact) :
    ((rankedWordMatches idx w m).getD i d).matchType = MatchType.exact := by
  rcases Nat.eq_or_lt_of_le hij with heq | hlt
  · subst heq
    exact hx
  by_cases hguard : w = "" ∨ w.length < 2
  · rw [rankedWordMatches, if_pos hguard] at hj
    simp at hj
  · rw [rankedWordMatches, if_neg hguard] at hj hx ⊢
    set sorted := sortByScoreDesc WordMatch.score (wordMatchState idx w m).matchList with hs
    set L := jsSliceTo sorted m with hL
    have hi : i < L.length := lt_of_le_of_lt hij hj
    have hpair : L.Pairwise (fun a b => WordMatch.score b ≤ WordMatch.score a) :=
      (sortByScoreDesc_pairwise WordMatch.score _).sublist (jsSliceTo_sublist sorted m)
    have hmemL : ∀ x ∈ L, x ∈ (wordMatchState idx w m).matchList := by
      intro x hxm
      exact ((sortByScoreDesc_perm WordMatch.score _).mem_iff).mp
        ((jsSliceTo_sublist sorted m).subset hxm)
    have hSI := wordMatchState_scoreInv idx w m
    rw [List.getD_eq_getElem _ _ hj] at hx
    rw [List.getD_eq_getElem _ _ hi]
    have hrel : WordMatch.score L[j] ≤ WordMatch.score L[i] :=
      List.pairwise_iff_getElem.mp hpair i j hi hj hlt
    have hQj := hSI L[j] (hmemL _ (List.getElem_mem hj))
    have hQi := hSI L[i] (hmemL _ (List.getElem_mem hi))
    have h100 : L[j].score = 100 := hQj.2.mp hx
    have hscore : L[i].score = 100 := by
      have := hQi.1
      omega
    exact hQi.2.mpr hscore

theorem predictEmojisForWord_short (idx : KeywordIndex) (word : String) (m : Int)
    (h : word.length < 2) : predictEmojisForWord idx word m = [] := by
  rw [predictEmojisForWord, rankedWordMatches, if_pos (Or.inr h)]
  rfl

theorem length_jsSliceTo_le {α : Type} (l : List α) (e : Int) (he : 0 ≤ e) :
    ((jsSliceTo l e).length : Int) ≤ e := by
  unfold jsSliceTo
  rw [if_neg (by omega)]
  have h1 : (l.take e.toNat).length ≤ e.toNat := by
    simp [List.length_take]
  omega

/-- A strategy pass only appends candidates, and every appended candidate
satisfies the pass's characterising predicate `Q`. -/
def ExtendsWith (Q : WordMatch → Prop) (st st' : WordState) : Prop :=
  ∃ t, st'.matchList = st.matchList ++ t ∧ ∀ mc ∈ t, Q mc

theorem extendsWith_refl (Q : WordMatch → Prop) (st : WordState) : ExtendsWith Q st st :=
  ⟨[], by simp, by simp⟩

theorem extendsWith_trans {Q : WordMatch → Prop} {st1 st2 st3 : WordState}
    (h1 : ExtendsWith Q st1 st2) (h2 : ExtendsWith Q st2 st3) : ExtendsWith Q st1 st3 := by
  obtain ⟨t1, e1, q1⟩ := h1
  obtain ⟨t2, e2, q2⟩ := h2
  refine ⟨t1 ++ t2, ?_, ?_⟩
  · rw [e2, e1, List.append_assoc]
  · intro mc hmc
    rcases List.mem_append.mp hmc with hmc | hmc
    · exact q1 mc hmc
    · exact q2 mc hmc

theorem pushWordMatch_extendsWith {Q : WordMatch → Prop} (st : WordState)
    (e : String) (sc : Int) (k : MatchType) (hq : Q ⟨e, sc, k⟩) :
    ExtendsWith Q st (pushWordMatch st e sc k) := by
  unfold pushWordMatch
  split
  · exact extendsWith_refl Q st
  · refine ⟨[⟨e, sc, k⟩], rfl, ?_⟩
    intro mc hmc
    simp only [List.mem_cons, List.not_mem_nil, or_false] at hmc
    subst hmc
    exact hq

theorem foldl_extendsWith {α : Type} {Q : WordMatch → Prop} {f : WordState → α → WordState} :
    ∀ (l : List α), (∀ b a, a ∈ l → ExtendsWith Q b (f b a)) →
      ∀ b, ExtendsWith Q b (l.foldl f b)
  | [], _, b => extendsWith_refl Q b
  | a :: l, hstep, b =>
    extendsWith_trans (hstep b a (List.mem_cons_self a l))
      (foldl_extendsWith l (fun b a' ha' => hstep b a' (List.mem_cons_of_mem a ha')) (f b a))

theorem fuzzyPass_gate (idx : KeywordIndex) (w : String) (m : Int) (st : WordState)
    (h : ¬ ((st.matchList.length : Int) < m)) : fuzzyPass idx w m st = st := by
  unfold fuzzyPass
  rw [if_neg h]

theorem fuzzyPass_extendsWith (idx : KeywordIndex) (w : String) (m : Int) (st : WordState) :
    ExtendsWith (fun mc => mc.matchType = MatchType.fuzzy ∧ ∃ kv, kv ∈ idx ∧
      mc.emoji ∈ kv.2 ∧ ((kv.1.length : Int) - (w.length : Int)).natAbs ≤ 2 ∧
      editDistance w.data kv.1.data ≤ 2 ∧
      mc.score = 80 - (editDistance w.data kv.1.data : Int) * 10)
      st (fuzzyPass idx w m st) := by
  unfold fuzzyPass
  split
  · refine foldl_extendsWith idx (fun b kv hkv => ?_) st
    split
    · rename_i hlen
      split
      · rename_i hdist
        refine foldl_extendsWith kv.2 (fun b e he => ?_) b
        refine pushWordMatch_extendsWith b e _ .fuzzy ?_
        refine ⟨rfl, kv, hkv, he, hlen, ?_, ?_⟩
        · rw [← levenshteinDistance_eq_editDistance]
          exact hdist
        · rw [← levenshteinDistance_eq_editDistance]
      · exact extendsWith_refl _ _
    · exact extendsWith_refl _ _
  · exact extendsWith_refl _ _

/-- The symbols a claiming loop actually adds: the elements of `es` that
are neither already claimed in `seen` nor duplicates of an earlier
element of `es`, in first-occurrence order. -/
def newSymbols (seen : List String) : List String → List String
  | [] => []
  | e :: es => if e ∈ seen then newSymbols seen es else e :: newSymbols (seen ++ [e]) es

theorem foldl_pushWordMatch_eq (sc : Int) (k : MatchType) :
    ∀ (es : List String) (st : WordState),
      es.foldl (fun st e => pushWordMatch st e sc k) st =
        ⟨st.matchList ++ (newSymbols st.seen es).map fun e => ⟨e, sc, k⟩,
          st.seen ++ newSymbols st.seen es⟩
  | [], st => by simp [newSymbols]
  | e :: es, st => by
    rw [List.foldl_cons]
    by_cases he : e ∈ st.seen
    · rw [show pushWordMatch st e sc k = st by rw [pushWordMatch, if_pos he]]
      rw [foldl_pushWordMatch_eq sc k es st]
      rw [show newSymbols st.seen (e :: es) = newSymbols st.seen es by
        rw [newSymbols, if_pos he]]
    · rw [show pushWordMatch st e sc k =
        WordState.mk (st.matchList ++ [WordMatch.mk e sc k]) (st.seen ++ [e]) by
          rw [pushWordMatch, if_neg he]]
      rw [foldl_pushWordMatch_eq sc k es
        (WordState.mk (st.matchList ++ [WordMatch.mk e sc k]) (st.seen ++ [e]))]
      rw [show newSymbols st.seen (e :: es) = e :: newSymbols (st.seen ++ [e]) es by
        rw [newSymbols, if_neg he]]
      simp [List.append_assoc]

theorem foldl_fn_congr {α β : Type} {f g : β → α → β} (h : ∀ b a, f b a = g b a) :
    ∀ (l : List α) (b : β), l.foldl f b = l.foldl g b
  | [], _ => rfl
  | a :: l, b => by rw [List.foldl_cons, List.foldl_cons, h, foldl_fn_congr h l]

theorem fuzzyPass_open (idx : KeywordIndex) (w : String) (m : Int) (st : WordState)
    (h : (st.matchList.length : Int) < m) :
    fuzzyPass idx w m st = idx.foldl
      (fun st kv =>
        if ((kv.1.length : Int) - (w.length : Int)).natAbs ≤ 2 ∧
            editDistance w.data kv.1.data ≤ 2 then
          ⟨st.matchList ++ (newSymbols st.seen kv.2).map fun e =>
              ⟨e, 80 - (editDistance w.data kv.1.data : Int) * 10, MatchType.fuzzy⟩,
            st.seen ++ newSymbols st.seen kv.2⟩
        else st) st := by
  unfold fuzzyPass
  rw [if_pos h]
  apply foldl_fn_congr
  intro b kv
  have hED := levenshteinDistance_eq_editDistance w kv.1
  by_cases hlen : ((kv.1.length : Int) - (w.length : Int)).natAbs ≤ 2
  · rw [if_pos hlen]
    by_cases hdist : levenshteinDistance w kv.1 ≤ 2
    · rw [if_pos hdist, foldl_pushWordMatch_eq, hED]
      rw [if_pos ⟨hlen, by omega⟩]
    · rw [if_neg hdist, if_neg]
      intro hc
      exact hdist (by omega)
  · rw [if_neg hlen, if_neg]
    exact fun hc => hlen hc.1

theorem predictEmojisForWord_negative_cap (idx : KeywordIndex) (w : String) (m : Int)
    (hm : m < 0) (hguard : ¬(w = "" ∨ w.length < 2)) :
    predictEmojisForWord idx w m =
      ((sortByScoreDesc WordMatch.score (wordMatchState idx w m).matchList).map
        WordMatch.emoji).take
        ((wordMatchState idx w m).matchList.length - m.natAbs) ∧
    (predictEmojisForWord idx w m = [] ↔
      (wordMatchState idx w m).matchList.length ≤ m.natAbs) := by
  have hlen : (sortByScoreDesc WordMatch.score (wordMatchState idx w m).matchList).length
      = (wordMatchState idx w m).matchList.length := (sortByScoreDesc_perm _ _).length_eq
  have h1 : predictEmojisForWord idx w m =
      ((sortByScoreDesc WordMatch.score (wordMatchState idx w m).matchList).map
        WordMatch.emoji).take
        ((wordMatchState idx w m).matchList.length - m.natAbs) := by
    rw [predictEmojisForWord, rankedWordMatches, if_neg hguard, jsSliceTo, if_pos hm]
    rw [List.map_take]
    congr 1
    rw [hlen]
    omega
  refine ⟨h1, ?_⟩
  have h2 : (predictEmojisForWord idx w m).length =
      (wordMatchState idx w m).matchList.length - m.natAbs := by
    rw [h1, List.length_take, List.length_map, hlen]
    omega
  constructor
  · intro hnil
    rw [hnil] at h2
    simp only [List.length_nil] at h2
    omega
  · intro hle
    have : (predictEmojisForWord idx w m).length = 0 := by omega
    exact List.length_eq_zero.mp this
/-! ## Cosine similarity -/

/-- Model of `new Set([...words1, ...words2])` iterated in insertion
order: deduplicate a list keeping first occurrences. -/
def jsSetList (l : List String) : List String :=
  l.foldl (fun acc w => if w ∈ acc then acc else acc ++ [w]) []

/-- The token list used by `cosineSimilarity`:
`str.toLowerCase().split(/\s+/)`. -/
def cosWords (s : String) : List String := jsSplitWS (jsToLower s)

/-- The frequency vector of a token list over the combined vocabulary:
for each vocabulary word, how often it occurs in the token list
(`words.filter(w => w === word).length`). -/
noncomputable def cosVector (ws vocab : List String) : List ℝ :=
  vocab.map fun w => ((ws.count w : ℕ) : ℝ)

/-- `vector1.reduce((sum, val, i) => sum + val * vector2[i], 0)`. -/
noncomputable def dotProduct (v1 v2 : List ℝ) : ℝ :=
  ((v1.zip v2).map fun p => p.1 * p.2).sum

/-- `Math.sqrt(vector.reduce((sum, val) => sum + val * val, 0))`. -/
noncomputable def magnitude (v : List ℝ) : ℝ :=
  Real.sqrt ((v.map fun x => x * x).sum)

/-- Embedding of `cosineSimilarity(str1, str2)` from the source: bag of
words cosine over the union vocabulary, `0` if either vector has zero
magnitude. -/
noncomputable def cosineSimilarity (str1 str2 : String) : ℝ :=
  let words1 := cosWords str1
  let words2 := cosWords str2
  let allWords := jsSetList (words1 ++ words2)
  let vector1 := cosVector words1 allWords
  let vector2 := cosVector words2 allWords
  if magnitude vector1 = 0 ∨ magnitude vector2 = 0 then 0
  else dotProduct vector1 vector2 / (magnitude vector1 * magnitude vector2)

/-! ## Sentence-level matching -/

/-- A sentence-level match candidate (real-valued scores). -/
structure SentMatch where
  emoji : String
  score : ℝ
  matchType : MatchType

/-- The evolving state of one sentence query. -/
structure SentState where
  matchList : List SentMatch
  seen : List String

/-- Push one sentence candidate unless its symbol is already claimed. -/
def pushSentMatch (st : SentState) (e : String) (sc : ℝ) (k : MatchType) : SentState :=
  if e ∈ st.seen then st
  else ⟨st.matchList ++ [⟨e, sc, k⟩], st.seen ++ [e]⟩

/-- Phase 1, one word: claim each symbol of `predictEmojisForWord(word, 3)`
with flat score 90, kind `exact`. -/
noncomputable def phase1Word (idx : KeywordIndex) (st : SentState) (word : String) :
    SentState :=
  (predictEmojisForWord idx word 3).foldl
    (fun st e => pushSentMatch st e 90 MatchType.exact) st

/-- Phase 1 of `predictEmojisForSentence`: per-word claims in sentence
order. -/
noncomputable def sentencePhase1 (idx : KeywordIndex) (words : List String) (st : SentState) :
    SentState :=
  words.foldl (phase1Word idx) st

/-- The per-record keyword loop of phase 2: running score and matched
keyword count (`score` / `matchedKeywords` in the source). -/
noncomputable def keywordFold (sent : String) (kws : List String) : ℝ × ℕ :=
  kws.foldl
    (fun acc kw =>
      if jsIncludes sent (jsToLower kw) then (acc.1 + 80, acc.2 + 1)
      else if cosineSimilarity sent (jsToLower kw) > 0.3 then
        (acc.1 + cosineSimilarity sent (jsToLower kw) * 60, acc.2 + 1)
      else acc) (0, 0)

/-- Phase 2, one record: if at least one keyword matched and the symbol
is unclaimed, claim it with the mean contribution `score / matchedKeywords`. -/
noncomputable def phase2Step (sent : String) (st : SentState) (r : EmojiData) : SentState :=
  if 0 < (keywordFold sent r.keywords).2 ∧ r.emoji ∉ st.seen then
    ⟨st.matchList ++
      [⟨r.emoji, (keywordFold sent r.keywords).1 / ((keywordFold sent r.keywords).2 : ℝ),
        MatchType.semantic⟩],
      st.seen ++ [r.emoji]⟩
  else st

/-- Phase 2 of `predictEmojisForSentence`: the whole-record semantic scan. -/
noncomputable def sentencePhase2 (sent : String) (db : List EmojiData) (st : SentState) :
    SentState :=
  db.foldl (phase2Step sent) st

/-- The candidate state of `predictEmojisForSentence` after both phases
on the normalized sentence. -/
noncomputable def sentenceMatchState (db : List EmojiData) (idx : KeywordIndex)
    (sentence : String) : SentState :=
  sentencePhase2 (jsTrim (jsToLower sentence)) db
    (sentencePhase1 idx (jsSplitWS (jsTrim (jsToLower sentence))) ⟨[], []⟩)

/-- Embedding of `predictEmojisForSentence(sentence, maxResults)`. -/
noncomputable def predictEmojisForSentence (db : List EmojiData) (idx : KeywordIndex)
    (sentence : String) (maxResults : Int) : List String :=
  if sentence = "" ∨ (jsTrim sentence).length = 0 then []
  else
    (jsSliceTo (sortByScoreDesc SentMatch.score (sentenceMatchState db idx sentence).matchList)
      maxResults).map SentMatch.emoji

/-! ## Category and popularity accessors -/

/-- Embedding of `getEmojisByCategory(category, limit)`. -/
def getEmojisByCategory (db : List EmojiData) (category : String) (limit : Int) :
    List String :=
  (jsSliceTo (db.filter fun data => data.category == category) limit).map EmojiData.emoji

/-- Embedding of `getPopularEmojis()`: the fixed hand-curated list (the
checked-in source file stores these literals with damaged encoding; the
intended symbols are reconstructed, and no property depends on their
identity, only on the list being a fixed well-formed sequence). -/
def getPopularEmojis : List String :=
  ["😀", "😂", "🥰", "😍", "🤩", "😎", "🥳", "😭", "😤", "🥺",
   "👍", "👏", "🙏", "💪", "✨", "🎉", "🔥", "❤️", "💯", "✅"]
/-! ## Specification-side reformulation of the phase-2 keyword scoring -/

/-- Number of matched keywords of a record against the normalized
sentence: keywords that occur as a literal substring, or whose cosine
similarity with the sentence exceeds 0.3. -/
noncomputable def keywordMatchCount (sent : String) (kws : List String) : ℕ :=
  kws.countP fun kw =>
    jsIncludes sent (jsToLower kw) || decide (cosineSimilarity sent (jsToLower kw) > 0.3)

/-- Total contribution of a record's keywords: 80 for a literal substring
occurrence, `similarity * 60` for a similarity above 0.3, 0 otherwise. -/
noncomputable def keywordContribSum (sent : String) (kws : List String) : ℝ :=
  (kws.map fun kw =>
    if jsIncludes sent (jsToLower kw) then (80 : ℝ)
    else if cosineSimilarity sent (jsToLower kw) > 0.3 then
      cosineSimilarity sent (jsToLower kw) * 60
    else 0).sum

theorem keywordFold_from (sent : String) :
    ∀ (kws : List String) (a : ℝ) (c : ℕ),
      kws.foldl
        (fun acc kw =>
          if jsIncludes sent (jsToLower kw) then (acc.1 + 80, acc.2 + 1)
          else if cosineSimilarity sent (jsToLower kw) > 0.3 then
            (acc.1 + cosineSimilarity sent (jsToLower kw) * 60, acc.2 + 1)
          else acc) (a, c) =
      (a + keywordContribSum sent kws, c + keywordMatchCount sent kws)
  | [], a, c => by
    simp [keywordContribSum, keywordMatchCount]
  | kw :: kws, a, c => by
    rw [List.foldl_cons]
    by_cases h1 : jsIncludes sent (jsToLower kw) = true
    · rw [if_pos h1, keywordFold_from sent kws (a + 80) (c + 1)]
      simp only [keywordContribSum, keywordMatchCount, List.map_cons, List.sum_cons,
        List.countP_cons, h1, if_pos, Bool.true_or, if_true]
      rw [Prod.mk.injEq]
      exact ⟨by ring, by omega⟩
    · have h1' : jsIncludes sent (jsToLower kw) = false := by
        simpa using h1
      by_cases h2 : cosineSimilarity sent (jsToLower kw) > 0.3
      · rw [if_neg h1, if_pos h2,
          keywordFold_from sent kws (a + cosineSimilarity sent (jsToLower kw) * 60) (c + 1)]
        simp only [keywordContribSum, keywordMatchCount, List.map_cons, List.sum_cons,
          List.countP_cons, h1', Bool.false_or, decide_eq_true_eq, h2, if_true, if_neg h1,
          Bool.false_eq_true, if_false]
        rw [Prod.mk.injEq]
        exact ⟨by ring, by omega⟩
      · rw [if_neg h1, if_neg h2, keywordFold_from sent kws a c]
        simp only [keywordContribSum, keywordMatchCount, List.map_cons, List.sum_cons,
          List.countP_cons, h1', Bool.false_or, decide_eq_true_eq, h2, if_neg h1, if_neg h2,
          Bool.false_eq_true, if_false]
        rw [Prod.mk.injEq]
        exact ⟨by ring, by omega⟩

theorem keywordFold_eq (sent : String) (kws : List String) :
    keywordFold sent kws = (keywordContribSum sent kws, keywordMatchCount sent kws) := by
  unfold keywordFold
  rw [keywordFold_from sent kws 0 0]
  simp

theorem phase2Step_spec (sent : String) (st : SentState) (r : EmojiData)
    (hseen : r.emoji ∉ st.seen) (hmk : 0 < keywordMatchCount sent r.keywords) :
    phase2Step sent st r =
      ⟨st.matchList ++
        [⟨r.emoji,
          keywordContribSum sent r.keywords / (keywordMatchCount sent r.keywords : ℝ),
          MatchType.semantic⟩],
        st.seen ++ [r.emoji]⟩ := by
  unfold phase2Step
  rw [keywordFold_eq]
  rw [if_pos ⟨hmk, hseen⟩]
/-! ## Sentence-level dedup invariant -/

/-- The dedup invariant of a sentence query state. -/
def SeenInvS (st : SentState) : Prop :=
  (st.matchList.map SentMatch.emoji).Nodup ∧
    ∀ e, e ∈ st.seen ↔ e ∈ st.matchList.map SentMatch.emoji

theorem pushSentMatch_seenInv {st : SentState} (e : String) (sc : ℝ) (k : MatchType)
    (h : SeenInvS st) : SeenInvS (pushSentMatch st e sc k) := by
  unfold pushSentMatch
  split
  · exact h
  · rename_i hnot
    obtain ⟨hn, hiff⟩ := h
    have hem : e ∉ st.matchList.map SentMatch.emoji := fun hc => hnot ((hiff e).mpr hc)
    constructor
    · simp only [List.map_append, List.map_cons, List.map_nil, List.nodup_append]
      refine ⟨hn, by simp, ?_⟩
      intro a ha hb
      simp only [List.mem_cons, List.not_mem_nil, or_false] at hb
      subst hb
      exact hem ha
    · intro x
      simp only [List.map_append, List.map_cons, List.map_nil, List.mem_append,
        List.mem_cons, List.not_mem_nil, or_false]
      constructor
      · intro hx
        rcases hx with hx | hx
        · exact Or.inl ((hiff x).mp hx)
        · exact Or.inr hx
      · intro hx
        rcases hx with hx | hx
        · exact Or.inl ((hiff x).mpr hx)
        · exact Or.inr hx

theorem phase1Word_seenInv (idx : KeywordIndex) (word : String) {st : SentState}
    (h : SeenInvS st) : SeenInvS (phase1Word idx st word) := by
  unfold phase1Word
  exact foldl_preserve (fun b a hb => pushSentMatch_seenInv a 90 .exact hb) _ st h

theorem sentencePhase1_seenInv (idx : KeywordIndex) (words : List String) {st : SentState}
    (h : SeenInvS st) : SeenInvS (sentencePhase1 idx words st) := by
  unfold sentencePhase1
  exact foldl_preserve (fun b a hb => phase1Word_seenInv idx a hb) words st h

theorem phase2Step_seenInv (sent : String) (r : EmojiData) {st : SentState}
    (h : SeenInvS st) : SeenInvS (phase2Step sent st r) := by
  unfold phase2Step
  split
  · rename_i hcond
    obtain ⟨hn, hiff⟩ := h
    have hem : r.emoji ∉ st.matchList.map SentMatch.emoji :=
      fun hc => hcond.2 ((hiff r.emoji).mpr hc)
    constructor
    · simp only [List.map_append, List.map_cons, List.map_nil, List.nodup_append]
      refine ⟨hn, by simp, ?_⟩
      intro a ha hb
      simp only [List.mem_cons, List.not_mem_nil, or_false] at hb
      subst hb
      exact hem ha
    · intro x
      simp only [List.map_append, List.map_cons, List.map_nil, List.mem_append,
        List.mem_cons, List.not_mem_nil, or_false]
      constructor
      · intro hx
        rcases hx with hx | hx
        · exact Or.inl ((hiff x).mp hx)
        · exact Or.inr hx
      · intro hx
        rcases hx with hx | hx
        · exact Or.inl ((hiff x).mpr hx)
        · exact Or.inr hx
  · exact h

theorem sentencePhase2_seenInv (sent : String) (db : List EmojiData) {st : SentState}
    (h : SeenInvS st) : SeenInvS (sentencePhase2 sent db st) := by
  unfold sentencePhase2
  exact foldl_preserve (fun b a hb => phase2Step_seenInv sent a hb) db st h

theorem sentenceMatchState_seenInv (db : List EmojiData) (idx : KeywordIndex)
    (sentence : String) : SeenInvS (sentenceMatchState db idx sentence) := by
  unfold sentenceMatchState
  refine sentencePhase2_seenInv _ _ (sentencePhase1_seenInv _ _ ?_)
  exact ⟨List.nodup_nil, by simp⟩

theorem predictEmojisForSentence_nodup (db : List EmojiData) (idx : KeywordIndex)
    (s : String) (m : Int) : (predictEmojisForSentence db idx s m).Nodup := by
  unfold predictEmojisForSentence
  split
  · simp
  · have hinv := sentenceMatchState_seenInv db idx s
    have hperm : List.Perm
        (sortByScoreDesc SentMatch.score (sentenceMatchState db idx s).matchList)
        (sentenceMatchState db idx s).matchList := sortByScoreDesc_perm _ _
    have h2 : ((sortByScoreDesc SentMatch.score
        (sentenceMatchState db idx s).matchList).map SentMatch.emoji).Nodup :=
      ((hperm.map SentMatch.emoji).nodup_iff).mpr hinv.1
    have hsub := (jsSliceTo_sublist
      (sortByScoreDesc SentMatch.score (sentenceMatchState db idx s).matchList) m).map
        SentMatch.emoji
    exact h2.sublist hsub
/-! ## Output symbols come from the knowledge base -/

theorem foldl_preserve_mem {α β : Type} {P : β → Prop} {f : β → α → β} :
    ∀ (l : List α), (∀ b a, a ∈ l → P b → P (f b a)) → ∀ b, P b → P (l.foldl f b)
  | [], _, _, hb => hb
  | a :: l, hstep, b, hb =>
    foldl_preserve_mem l (fun b a' ha' => hstep b a' (List.mem_cons_of_mem a ha'))
      (f b a) (hstep b a (List.mem_cons_self a l) hb)

/-- The symbol occurs in some entry of the keyword index. -/
def isIndexSymbol (idx : KeywordIndex) (e : String) : Bool :=
  idx.any fun kv => decide (e ∈ kv.2)

/-- The symbol is the symbol of some record of the database. -/
def isDbSymbol (db : List EmojiData) (e : String) : Bool :=
  db.any fun r => r.emoji == e

/-- Every pushed word-level candidate names a symbol of the index. -/
def SrcInv (idx : KeywordIndex) (st : WordState) : Prop :=
  ∀ mc ∈ st.matchList, isIndexSymbol idx mc.emoji = true

theorem pushWordMatch_srcInv {idx : KeywordIndex} {st : WordState} {e : String}
    (sc : Int) (k : MatchType) (he : isIndexSymbol idx e = true) (h : SrcInv idx st) :
    SrcInv idx (pushWordMatch st e sc k) := by
  unfold pushWordMatch
  split
  · exact h
  · intro mc hmc
    rcases List.mem_append.mp hmc with hmc | hmc
    · exact h mc hmc
    · simp only [List.mem_cons, List.not_mem_nil, or_false] at hmc
      subst hmc
      exact he

theorem isIndexSymbol_of_mem {idx : KeywordIndex} {kv : String × List String} {e : String}
    (hkv : kv ∈ idx) (he : e ∈ kv.2) : isIndexSymbol idx e = true := by
  unfold isIndexSymbol
  rw [List.any_eq_true]
  exact ⟨kv, hkv, by simpa using he⟩

theorem exactPass_srcInv (idx : KeywordIndex) (w : String) {st : WordState}
    (h : SrcInv idx st) : SrcInv idx (exactPass idx w st) := by
  unfold exactPass
  split
  · rename_i emojis hlook
    unfold idxLookup at hlook
    rw [Option.map_eq_some'] at hlook
    obtain ⟨kv, hfind, hkv2⟩ := hlook
    have hkv : kv ∈ idx := List.mem_of_find?_eq_some hfind
    refine foldl_preserve_mem emojis (fun b a ha hb => ?_) st h
    exact pushWordMatch_srcInv 100 .exact (isIndexSymbol_of_mem hkv (hkv2 ▸ ha)) hb
  · exact h

theorem startsWithPass_srcInv (idx : KeywordIndex) (w : String) {st : WordState}
    (h : SrcInv idx st) : SrcInv idx (startsWithPass idx w st) := by
  unfold startsWithPass
  refine foldl_preserve_mem idx (fun b kv hkv hb => ?_) st h
  split
  · refine foldl_preserve_mem kv.2 (fun b a ha hb => ?_) b hb
    exact pushWordMatch_srcInv _ .pre (isIndexSymbol_of_mem hkv ha) hb
  · exact hb

theorem fuzzyPass_srcInv (idx : KeywordIndex) (w : String) (m : Int) {st : WordState}
    (h : SrcInv idx st) : SrcInv idx (fuzzyPass idx w m st) := by
  unfold fuzzyPass
  split
  · refine foldl_preserve_mem idx (fun b kv hkv hb => ?_) st h
    split
    · split
      · refine foldl_preserve_mem kv.2 (fun b a ha hb => ?_) b hb
        exact pushWordMatch_srcInv _ .fuzzy (isIndexSymbol_of_mem hkv ha) hb
      · exact hb
    · exact hb
  · exact h

theorem semanticPass_srcInv (idx : KeywordIndex) (w : String) (m : Int) {st : WordState}
    (h : SrcInv idx st) : SrcInv idx (semanticPass idx w m st) := by
  unfold semanticPass
  split
  · refine foldl_preserve_mem idx (fun b kv hkv hb => ?_) st h
    split
    · refine foldl_preserve_mem kv.2 (fun b a ha hb => ?_) b hb
      exact pushWordMatch_srcInv 70 .semantic (isIndexSymbol_of_mem hkv ha) hb
    · exact hb
  · exact h

theorem wordMatchState_srcInv (idx : KeywordIndex) (word : String) (m : Int) :
    SrcInv idx (wordMatchState idx word m) := by
  unfold wordMatchState
  refine semanticPass_srcInv _ _ _ (fuzzyPass_srcInv _ _ _
    (startsWithPass_srcInv _ _ (exactPass_srcInv _ _ ?_)))
  intro mc hmc
  simp at hmc

theorem predictEmojisForWord_symbols (idx : KeywordIndex) (w : String) (m : Int) :
    (predictEmojisForWord idx w m).all (isIndexSymbol idx) = true := by
  rw [List.all_eq_true]
  intro e he
  unfold predictEmojisForWord rankedWordMatches at he
  split at he
  · simp at he
  · rw [List.mem_map] at he
    obtain ⟨mc, hmc, hemc⟩ := he
    have h1 : mc ∈ (wordMatchState idx w m).matchList :=
      ((sortByScoreDesc_perm WordMatch.score _).mem_iff).mp
        ((jsSliceTo_sublist _ _).subset hmc)
    exact hemc ▸ wordMatchState_srcInv idx w m mc h1

/-- Every pushed sentence-level candidate names a symbol of the index or
of the database. -/
def SrcInvS (db : List EmojiData) (idx : KeywordIndex) (st : SentState) : Prop :=
  ∀ mc ∈ st.matchList, (isIndexSymbol idx mc.emoji || isDbSymbol db mc.emoji) = true

theorem phase1Word_srcInv (db : List EmojiData) (idx : KeywordIndex) (word : String)
    {st : SentState} (h : SrcInvS db idx st) : SrcInvS db idx (phase1Word idx st word) := by
  unfold phase1Word
  refine foldl_preserve_mem _ (fun b a ha hb => ?_) st h
  unfold pushSentMatch
  split
  · exact hb
  · intro mc hmc
    rcases List.mem_append.mp hmc with hmc | hmc
    · exact hb mc hmc
    · simp only [List.mem_cons, List.not_mem_nil, or_false] at hmc
      subst hmc
      have := List.all_eq_true.mp (predictEmojisForWord_symbols idx word 3) a ha
      simp only [Bool.or_eq_true]
      exact Or.inl this

theorem sentencePhase1_srcInv (db : List EmojiData) (idx : KeywordIndex)
    (words : List String) {st : SentState} (h : SrcInvS db idx st) :
    SrcInvS db idx (sentencePhase1 idx words st) := by
  unfold sentencePhase1
  exact foldl_preserve (fun b a hb => phase1Word_srcInv db idx a hb) words st h

theorem sentencePhase2_srcInv (db : List EmojiData) (idx : KeywordIndex) (sent : String)
    {st : SentState} (h : SrcInvS db idx st) :
    SrcInvS db idx (sentencePhase2 sent db st) := by
  unfold sentencePhase2
  refine foldl_preserve_mem db (fun b r hr hb => ?_) st h
  unfold phase2Step
  split
  · intro mc hmc
    rcases List.mem_append.mp hmc with hmc | hmc
    · exact hb mc hmc
    · simp only [List.mem_cons, List.not_mem_nil, or_false] at hmc
      subst hmc
      simp only [Bool.or_eq_true]
      refine Or.inr ?_
      unfold isDbSymbol
      rw [List.any_eq_true]
      exact ⟨r, hr, by simp⟩
  · exact hb

theorem predictEmojisForSentence_symbols (db : List EmojiData) (idx : KeywordIndex)
    (s : String) (m : Int) :
    (predictEmojisForSentence db idx s m).all
      (fun e => isIndexSymbol idx e || isDbSymbol db e) = true := by
  rw [List.all_eq_true]
  intro e he
  unfold predictEmojisForSentence at he
  split at he
  · simp at he
  · rw [List.mem_map] at he
    obtain ⟨mc, hmc, hemc⟩ := he
    have h1 : mc ∈ (sentenceMatchState db idx s).matchList :=
      ((sortByScoreDesc_perm SentMatch.score _).mem_iff).mp
        ((jsSliceTo_sublist _ _).subset hmc)
    have h2 : SrcInvS db idx (sentenceMatchState db idx s) := by
      unfold sentenceMatchState
      refine sentencePhase2_srcInv db idx _ (sentencePhase1_srcInv db idx _ ?_)
      intro mc hmc
      simp at hmc
    exact hemc ▸ h2 mc h1

theorem getEmojisByCategory_symbols (db : List EmojiData) (cat : String) (l : Int) :
    (getEmojisByCategory db cat l).all (isDbSymbol db) = true := by
  rw [List.all_eq_true]
  intro e he
  unfold getEmojisByCategory at he
  rw [List.mem_map] at he
  obtain ⟨r, hr, her⟩ := he
  have h1 : r ∈ db := List.mem_of_mem_filter ((jsSliceTo_sublist _ _).subset hr)
  unfold isDbSymbol
  rw [List.any_eq_true]
  exact ⟨r, h1, by simp [her]⟩
/-! ## Cosine similarity: symmetry and nonzero magnitudes -/

theorem jsSetList_go_mem :
    ∀ (l acc : List String) (x : String),
      (x ∈ l.foldl (fun acc w => if w ∈ acc then acc else acc ++ [w]) acc) ↔
        x ∈ acc ∨ x ∈ l
  | [], acc, x => by simp
  | w :: l, acc, x => by
    rw [List.foldl_cons]
    by_cases h : w ∈ acc
    · rw [if_pos h, jsSetList_go_mem l acc x]
      simp only [List.mem_cons]
      constructor
      · rintro (hx | hx)
        · exact Or.inl hx
        · exact Or.inr (Or.inr hx)
      · rintro (hx | hx | hx)
        · exact Or.inl hx
        · exact Or.inl (hx ▸ h)
        · exact Or.inr hx
    · rw [if_neg h, jsSetList_go_mem l (acc ++ [w]) x]
      simp only [List.mem_append, List.mem_cons, List.not_mem_nil, or_false]
      exact or_assoc

theorem jsSetList_go_nodup :
    ∀ (l acc : List String), acc.Nodup →
      (l.foldl (fun acc w => if w ∈ acc then acc else acc ++ [w]) acc).Nodup
  | [], _, h => h
  | w :: l, acc, h => by
    rw [List.foldl_cons]
    by_cases hw : w ∈ acc
    · rw [if_pos hw]
      exact jsSetList_go_nodup l acc h
    · rw [if_neg hw]
      refine jsSetList_go_nodup l (acc ++ [w]) ?_
      refine List.Nodup.append h (by simp) ?_
      intro x hx hx'
      simp only [List.mem_cons, List.not_mem_nil, or_false] at hx'
      subst hx'
      exact hw hx

theorem jsSetList_mem (l : List String) (x : String) : x ∈ jsSetList l ↔ x ∈ l := by
  unfold jsSetList
  rw [jsSetList_go_mem]
  simp

theorem jsSetList_nodup (l : List String) : (jsSetList l).Nodup :=
  jsSetList_go_nodup l [] List.nodup_nil

theorem magnitude_cosVector (ws vocab : List String) :
    magnitude (cosVector ws vocab) =
      Real.sqrt ((vocab.map fun w => ((ws.count w : ℕ) : ℝ) * ((ws.count w : ℕ) : ℝ)).sum) := by
  unfold magnitude cosVector
  rw [List.map_map]
  rfl

theorem dotProduct_cosVector (ws1 ws2 vocab : List String) :
    dotProduct (cosVector ws1 vocab) (cosVector ws2 vocab) =
      (vocab.map fun w => ((ws1.count w : ℕ) : ℝ) * ((ws2.count w : ℕ) : ℝ)).sum := by
  unfold dotProduct cosVector
  rw [List.zip_map', List.map_map]
  rfl

theorem cosineSimilarity_def (a b : String) :
    cosineSimilarity a b =
      if magnitude (cosVector (cosWords a) (jsSetList (cosWords a ++ cosWords b))) = 0 ∨
          magnitude (cosVector (cosWords b) (jsSetList (cosWords a ++ cosWords b))) = 0 then 0
      else
        dotProduct (cosVector (cosWords a) (jsSetList (cosWords a ++ cosWords b)))
            (cosVector (cosWords b) (jsSetList (cosWords a ++ cosWords b))) /
          (magnitude (cosVector (cosWords a) (jsSetList (cosWords a ++ cosWords b))) *
            magnitude (cosVector (cosWords b) (jsSetList (cosWords a ++ cosWords b)))) := rfl

theorem jsSetList_comm_perm (l1 l2 : List String) :
    List.Perm (jsSetList (l1 ++ l2)) (jsSetList (l2 ++ l1)) := by
  rw [List.perm_ext_iff_of_nodup (jsSetList_nodup _) (jsSetList_nodup _)]
  intro a
  rw [jsSetList_mem, jsSetList_mem, List.mem_append, List.mem_append]
  exact or_comm

theorem cosineSimilarity_comm (a b : String) :
    cosineSimilarity a b = cosineSimilarity b a := by
  rw [cosineSimilarity_def a b, cosineSimilarity_def b a]
  have hperm := jsSetList_comm_perm (cosWords a) (cosWords b)
  have hms : ∀ ws : List String,
      magnitude (cosVector ws (jsSetList (cosWords b ++ cosWords a))) =
        magnitude (cosVector ws (jsSetList (cosWords a ++ cosWords b))) := by
    intro ws
    rw [magnitude_cosVector, magnitude_cosVector]
    congr 1
    exact (hperm.map _).sum_eq.symm
  have hdot :
      dotProduct (cosVector (cosWords b) (jsSetList (cosWords b ++ cosWords a)))
          (cosVector (cosWords a) (jsSetList (cosWords b ++ cosWords a))) =
        dotProduct (cosVector (cosWords a) (jsSetList (cosWords a ++ cosWords b)))
          (cosVector (cosWords b) (jsSetList (cosWords a ++ cosWords b))) := by
    rw [dotProduct_cosVector, dotProduct_cosVector]
    have h1 := ((jsSetList_comm_perm (cosWords b) (cosWords a)).map
      (fun w => ((((cosWords b).count w : ℕ)) : ℝ) * (((cosWords a).count w : ℕ) : ℝ))).sum_eq
    rw [h1]
    refine congrArg List.sum (List.map_congr_left fun w _ => ?_)
    ring
  rw [hms (cosWords a), hms (cosWords b), hdot]
  refine if_congr or_comm rfl ?_
  rw [mul_comm (magnitude (cosVector (cosWords b) (jsSetList (cosWords a ++ cosWords b))))
    (magnitude (cosVector (cosWords a) (jsSetList (cosWords a ++ cosWords b))))]

theorem splitWSChars_ne_nil (l : List Char) : splitWSChars l ≠ [] := by
  rw [splitWSChars]
  split <;> simp

theorem cosWords_ne_nil (s : String) : cosWords s ≠ [] := by
  unfold cosWords jsSplitWS
  simp only [ne_eq, List.map_eq_nil_iff]
  exact splitWSChars_ne_nil _

theorem one_le_magnitude_cosVector (ws vocab : List String)
    (h : ∃ w, w ∈ vocab ∧ w ∈ ws) : 1 ≤ magnitude (cosVector ws vocab) := by
  obtain ⟨w, hwv, hww⟩ := h
  rw [magnitude_cosVector]
  have hc : 1 ≤ ws.count w := List.count_pos_iff.mpr hww
  have hc' : (1 : ℝ) ≤ ((ws.count w : ℕ) : ℝ) := by exact_mod_cast hc
  have hterm : (1 : ℝ) ≤ ((ws.count w : ℕ) : ℝ) * ((ws.count w : ℕ) : ℝ) := by nlinarith
  have hsum : ((ws.count w : ℕ) : ℝ) * ((ws.count w : ℕ) : ℝ) ≤
      (vocab.map fun w => ((ws.count w : ℕ) : ℝ) * ((ws.count w : ℕ) : ℝ)).sum := by
    apply List.single_le_sum
    · intro x hx
      rw [List.mem_map] at hx
      obtain ⟨u, _, hu⟩ := hx
      exact hu ▸ mul_self_nonneg _
    · exact List.mem_map_of_mem _ hwv
  calc (1 : ℝ) = Real.sqrt 1 := Real.sqrt_one.symm
    _ ≤ Real.sqrt _ := Real.sqrt_le_sqrt (le_trans hterm hsum)
/-! ## Claim theorems -/

/-- C1 (amended): the short-word guard of `predictEmojisForWord` tests the
raw input length before trimming: every word that is empty or shorter
than 2 characters (untrimmed) yields the empty sequence immediately. -/
theorem claim1_short_word_guard (idx : KeywordIndex) (word : String) (m : Int)
    (h : word.length < 2) : predictEmojisForWord idx word m = [] := by
  rw [predictEmojisForWord, rankedWordMatches, if_pos (Or.inr h)]
  rfl

/-- C1, counterexample to the claim as stated: the word `" h"` has
trimmed length 1 (shorter than 2), yet `predictEmojisForWord` does score
it (the guard checks the untrimmed length 2) and returns a non-empty
sequence on the modelled knowledge base. -/
theorem claim1_counterexample :
    ((jsTrim " h").length < 2) ∧ predictEmojisForWord emojiKeywordIndex " h" 5 ≠ [] := by
  constructor
  · decide
  · decide

theorem claim1_witness :
    ("a".length < 2 ∧ predictEmojisForWord emojiKeywordIndex "a" 5 = []) ∧
      ("".length < 2 ∧ predictEmojisForWord emojiKeywordIndex "" 5 = []) :=
  ⟨⟨by decide, claim1_short_word_guard emojiKeywordIndex "a" 5 (by decide)⟩,
    ⟨by decide, claim1_short_word_guard emojiKeywordIndex "" 5 (by decide)⟩⟩

/-- C2: in the phase-2 scan of `predictEmojisForSentence`, the per-record
keyword loop computes exactly the sum of contributions (80 per literal
substring keyword, `similarity * 60` per keyword with cosine similarity
above 0.3) together with the matched-keyword count, and a record whose
symbol is not yet claimed and with at least one matched keyword is
claimed with the mean contribution `sum / matchedKeywordCount`. -/
theorem claim2_phase2_scoring :
    (∀ (sent : String) (kws : List String),
      keywordFold sent kws = (keywordContribSum sent kws, keywordMatchCount sent kws)) ∧
    (∀ (sent : String) (st : SentState) (r : EmojiData), r.emoji ∉ st.seen →
      0 < keywordMatchCount sent r.keywords →
      phase2Step sent st r =
        ⟨st.matchList ++
          [⟨r.emoji,
            keywordContribSum sent r.keywords / (keywordMatchCount sent r.keywords : ℝ),
            MatchType.semantic⟩],
          st.seen ++ [r.emoji]⟩) :=
  ⟨keywordFold_eq, phase2Step_spec⟩

theorem claim2_witness :
    ("😀" ∉ (SentState.mk [] []).seen) ∧ 0 < keywordMatchCount "happy" ["happy"] ∧
    phase2Step "happy" ⟨[], []⟩ ⟨"😀", ["happy"], "celebration"⟩ =
      ⟨([] : List SentMatch) ++
        [⟨"😀",
          keywordContribSum "happy" ["happy"] / (keywordMatchCount "happy" ["happy"] : ℝ),
          MatchType.semantic⟩],
        ([] : List String) ++ ["😀"]⟩ := by
  have hseen : ("😀" : String) ∉ (SentState.mk [] []).seen := by simp
  have hmk : 0 < keywordMatchCount "happy" ["happy"] := by decide
  exact ⟨hseen, hmk,
    claim2_phase2_scoring.2 "happy" ⟨[], []⟩ ⟨"😀", ["happy"], "celebration"⟩ hseen hmk⟩

/-- C3: the fuzzy pass runs only when fewer than `maxResults` candidates
exist so far; the source's dynamic-programming `levenshteinDistance`
computes the mathematical cost-1 insert/delete/substitute edit distance
on all pairs of strings; and with the gate open the pass equals, entry by
entry, the scan that skips every keyword outside length difference 2 or
edit distance 2 and awards score `80 - 10 * distance`, kind `fuzzy`, to
every not-yet-claimed symbol under each remaining keyword (`newSymbols`
lists exactly those symbols in first-occurrence order); in particular
every candidate the pass appends stems from such a keyword with exactly
that score. -/
theorem claim3_fuzzy_pass :
    (∀ s1 s2 : String, levenshteinDistance s1 s2 = editDistance s1.data s2.data) ∧
    (∀ (idx : KeywordIndex) (w : String) (m : Int) (st : WordState),
      ¬((st.matchList.length : Int) < m) → fuzzyPass idx w m st = st) ∧
    (∀ (idx : KeywordIndex) (w : String) (m : Int) (st : WordState),
      ((st.matchList.length : Int) < m) →
      fuzzyPass idx w m st = idx.foldl
        (fun st kv =>
          if ((kv.1.length : Int) - (w.length : Int)).natAbs ≤ 2 ∧
              editDistance w.data kv.1.data ≤ 2 then
            ⟨st.matchList ++ (newSymbols st.seen kv.2).map fun e =>
                ⟨e, 80 - (editDistance w.data kv.1.data : Int) * 10, MatchType.fuzzy⟩,
              st.seen ++ newSymbols st.seen kv.2⟩
          else st) st) ∧
    (∀ (idx : KeywordIndex) (w : String) (m : Int) (st : WordState),
      ExtendsWith (fun mc => mc.matchType = MatchType.fuzzy ∧ ∃ kv, kv ∈ idx ∧
        mc.emoji ∈ kv.2 ∧ ((kv.1.length : Int) - (w.length : Int)).natAbs ≤ 2 ∧
        editDistance w.data kv.1.data ≤ 2 ∧
        mc.score = 80 - (editDistance w.data kv.1.data : Int) * 10)
        st (fuzzyPass idx w m st)) :=
  ⟨levenshteinDistance_eq_editDistance, fuzzyPass_gate, fuzzyPass_open, fuzzyPass_extendsWith⟩

theorem claim3_witness :
    fuzzyPass emojiKeywordIndex "ab" 0 ⟨[], []⟩ = ⟨[], []⟩ ∧
    (((WordState.mk [] []).matchList.length : Int) < 5 ∧
      fuzzyPass emojiKeywordIndex "hapy" 5 ⟨[], []⟩ =
        emojiKeywordIndex.foldl
          (fun st kv =>
            if ((kv.1.length : Int) - (("hapy" : String).length : Int)).natAbs ≤ 2 ∧
                editDistance ("hapy" : String).data kv.1.data ≤ 2 then
              ⟨st.matchList ++ (newSymbols st.seen kv.2).map fun e =>
                  ⟨e, 80 - (editDistance ("hapy" : String).data kv.1.data : Int) * 10,
                    MatchType.fuzzy⟩,
                st.seen ++ newSymbols st.seen kv.2⟩
            else st) ⟨[], []⟩) ∧
    fuzzyPass emojiKeywordIndex "hapy" 5 ⟨[], []⟩ =
      ⟨[⟨"😀", 70, MatchType.fuzzy⟩], ["😀"]⟩ ∧
    levenshteinDistance "kitten" "sitting" = editDistance "kitten".data "sitting".data :=
  ⟨claim3_fuzzy_pass.2.1 emojiKeywordIndex "ab" 0 ⟨[], []⟩ (by decide),
    ⟨by decide, claim3_fuzzy_pass.2.2.1 emojiKeywordIndex "hapy" 5 ⟨[], []⟩ (by decide)⟩,
    by decide,
    claim3_fuzzy_pass.1 "kitten" "sitting"⟩

/-- C4: in the ranking returned for a word query, a candidate claimed by
the exact strategy is never placed after a candidate claimed by another
strategy: any position whose candidate is non-exact has only exact
candidates before it, and the output is that ranking's symbol list. -/
theorem claim4_exact_priority (idx : KeywordIndex) (w : String) (m : Int)
    (i j : Nat) (d : WordMatch) (hij : i ≤ j)
    (hj : j < (rankedWordMatches idx w m).length)
    (hx : ((rankedWordMatches idx w m).getD j d).matchType = MatchType.exact) :
    predictEmojisForWord idx w m = (rankedWordMatches idx w m).map WordMatch.emoji ∧
    ((rankedWordMatches idx w m).getD i d).matchType = MatchType.exact :=
  ⟨rfl, word_exact_first idx w m i j d hij hj hx⟩

theorem claim4_witness :
    (0 ≤ 0 ∧ 0 < (rankedWordMatches emojiKeywordIndex "happy" 5).length ∧
      ((rankedWordMatches emojiKeywordIndex "happy" 5).getD 0
        ⟨"", 0, MatchType.exact⟩).matchType = MatchType.exact) ∧
    predictEmojisForWord emojiKeywordIndex "happy" 5 =
      (rankedWordMatches emojiKeywordIndex "happy" 5).map WordMatch.emoji :=
  ⟨⟨by decide, by decide, by decide⟩,
    (claim4_exact_priority emojiKeywordIndex "happy" 5 0 0 ⟨"", 0, MatchType.exact⟩
      (by decide) (by decide) (by decide)).1⟩

/-- C5: with a nonnegative result cap `n`, both prediction functions
return at most `n` symbols. -/
theorem claim5_cap (idx : KeywordIndex) (db : List EmojiData) (w s : String) (n : Int)
    (hn : 0 ≤ n) :
    (((predictEmojisForWord idx w n).length : Int) ≤ n) ∧
    (((predictEmojisForSentence db idx s n).length : Int) ≤ n) := by
  constructor
  · rw [predictEmojisForWord, rankedWordMatches]
    split
    · simpa using hn
    · rw [List.length_map]
      exact length_jsSliceTo_le _ n hn
  · rw [predictEmojisForSentence]
    split
    · simpa using hn
    · rw [List.length_map]
      exact length_jsSliceTo_le _ n hn

theorem claim5_witness :
    (0 : Int) ≤ 3 ∧
    (((predictEmojisForWord emojiKeywordIndex "happy" 3).length : Int) ≤ 3 ∧
      ((predictEmojisForSentence emojiDatabase emojiKeywordIndex "so happy" 3).length : Int) ≤ 3) :=
  ⟨by decide,
    claim5_cap emojiKeywordIndex emojiDatabase "happy" "so happy" 3 (by decide)⟩

/-- C6: for every input and every result cap, neither prediction function
returns a repeated symbol. -/
theorem claim6_no_duplicates (idx : KeywordIndex) (db : List EmojiData) (w s : String)
    (m : Int) :
    (predictEmojisForWord idx w m).Nodup ∧ (predictEmojisForSentence db idx s m).Nodup :=
  ⟨predictEmojisForWord_nodup idx w m, predictEmojisForSentence_nodup db idx s m⟩

/-- C7: all four engine operations are total functions of their inputs in
this embedding, and on every input they return a well-formed sequence of
symbols: every symbol returned by the word and sentence predictors comes
from the keyword index or the record database, every symbol returned by
the category accessor is a record's symbol, and the popular list is the
fixed 20-element sequence. -/
theorem claim7_total_wellformed (idx : KeywordIndex) (db : List EmojiData)
    (w s cat : String) (m l : Int) :
    (predictEmojisForWord idx w m).all (isIndexSymbol idx) = true ∧
    (predictEmojisForSentence db idx s m).all
      (fun e => isIndexSymbol idx e || isDbSymbol db e) = true ∧
    (getEmojisByCategory db cat l).all (isDbSymbol db) = true ∧
    getPopularEmojis.length = 20 :=
  ⟨predictEmojisForWord_symbols idx w m, predictEmojisForSentence_symbols db idx s m,
    getEmojisByCategory_symbols db cat l, rfl⟩

/-- C8: the bag-of-words cosine similarity of the source is symmetric in
its two string arguments. -/
theorem claim8_cosine_symm (a b : String) : cosineSimilarity a b = cosineSimilarity b a :=
  cosineSimilarity_comm a b

/-- C9: inside `cosineSimilarity`, both frequency vectors always have
magnitude at least 1 (splitting any string on whitespace yields at least
one token, possibly empty, and that token's own count is at least 1), so
the zero-magnitude guard can never fire and the final division is by a
nonzero product. -/
theorem claim9_nonzero_magnitudes (s1 s2 : String) :
    1 ≤ magnitude (cosVector (cosWords s1) (jsSetList (cosWords s1 ++ cosWords s2))) ∧
    1 ≤ magnitude (cosVector (cosWords s2) (jsSetList (cosWords s1 ++ cosWords s2))) ∧
    ¬(magnitude (cosVector (cosWords s1) (jsSetList (cosWords s1 ++ cosWords s2))) = 0 ∨
      magnitude (cosVector (cosWords s2) (jsSetList (cosWords s1 ++ cosWords s2))) = 0) ∧
    magnitude (cosVector (cosWords s1) (jsSetList (cosWords s1 ++ cosWords s2))) *
      magnitude (cosVector (cosWords s2) (jsSetList (cosWords s1 ++ cosWords s2))) ≠ 0 ∧
    cosineSimilarity s1 s2 =
      dotProduct (cosVector (cosWords s1) (jsSetList (cosWords s1 ++ cosWords s2)))
          (cosVector (cosWords s2) (jsSetList (cosWords s1 ++ cosWords s2))) /
        (magnitude (cosVector (cosWords s1) (jsSetList (cosWords s1 ++ cosWords s2))) *
          magnitude (cosVector (cosWords s2) (jsSetList (cosWords s1 ++ cosWords s2)))) := by
  obtain ⟨w1, hw1⟩ := List.exists_mem_of_ne_nil _ (cosWords_ne_nil s1)
  obtain ⟨w2, hw2⟩ := List.exists_mem_of_ne_nil _ (cosWords_ne_nil s2)
  have h1 : 1 ≤ magnitude (cosVector (cosWords s1) (jsSetList (cosWords s1 ++ cosWords s2))) :=
    one_le_magnitude_cosVector _ _
      ⟨w1, (jsSetList_mem _ _).mpr (List.mem_append_left _ hw1), hw1⟩
  have h2 : 1 ≤ magnitude (cosVector (cosWords s2) (jsSetList (cosWords s1 ++ cosWords s2))) :=
    one_le_magnitude_cosVector _ _
      ⟨w2, (jsSetList_mem _ _).mpr (List.mem_append_right _ hw2), hw2⟩
  have h3 : ¬(magnitude (cosVector (cosWords s1) (jsSetList (cosWords s1 ++ cosWords s2))) = 0 ∨
      magnitude (cosVector (cosWords s2) (jsSetList (cosWords s1 ++ cosWords s2))) = 0) := by
    rintro (h | h) <;> linarith
  refine ⟨h1, h2, h3, mul_ne_zero (by linarith) (by linarith), ?_⟩
  rw [cosineSimilarity_def, if_neg h3]

/-- C10: a negative `maxResults = -k` does not produce an empty result in
general: JavaScript slice semantics keep the ranked candidate list with
its last `k` elements removed, which is empty exactly when `k` is at
least the number of candidates. -/
theorem claim10_negative_cap (idx : KeywordIndex) (w : String) (m : Int)
    (hm : m < 0) (hguard : ¬(w = "" ∨ w.length < 2)) :
    predictEmojisForWord idx w m =
      ((sortByScoreDesc WordMatch.score (wordMatchState idx w m).matchList).map
        WordMatch.emoji).take
        ((wordMatchState idx w m).matchList.length - m.natAbs) ∧
    (predictEmojisForWord idx w m = [] ↔
      (wordMatchState idx w m).matchList.length ≤ m.natAbs) :=
  predictEmojisForWord_negative_cap idx w m hm hguard

theorem claim10_witness :
    ((-1 : Int) < 0 ∧ ¬(("happy" : String) = "" ∨ ("happy" : String).length < 2)) ∧
    (predictEmojisForWord emojiKeywordIndex "happy" (-1) =
      ((sortByScoreDesc WordMatch.score
        (wordMatchState emojiKeywordIndex "happy" (-1)).matchList).map WordMatch.emoji).take
        ((wordMatchState emojiKeywordIndex "happy" (-1)).matchList.length - (-1 : Int).natAbs) ∧
      (predictEmojisForWord emojiKeywordIndex "happy" (-1) = [] ↔
        (wordMatchState emojiKeywordIndex "happy" (-1)).matchList.length ≤ (-1 : Int).natAbs)) :=
  ⟨⟨by decide, by decide⟩,
    claim10_negative_cap emojiKeywordIndex "happy" (-1) (by decide) (by decide)⟩
end TextmojiSense
